import Mathlib

/-!
Verification of the tournament-outcome enumeration engine in `src/main.rs`
(ccls-sim).  The Rust program is shallowly embedded: `u8` counters become
`Nat` with explicit `% 256` arithmetic at each increment (release-mode
wrapping semantics), the `HashMap<String, Player>` registry becomes a list
of records in iteration order (run-to-run nondeterminism of hash iteration
is modelled by quantifying over permutations of that list), and fallible
computations (the `unwrap` of a failed f32 `partial_cmp`) return `Option`.
-/

namespace CCLS

/-- Names of players, the registry keys (Rust `String`, ordered
lexicographically). -/
abbrev Name := String

/-- Model of the `Player` struct (src/main.rs lines 32-49).  The four
counters are `u8`; `placements` models the `HashMap<usize, usize>` of
rank-to-count as an association list in insertion order. -/
structure Player where
  name : Name
  wins : Nat
  losses : Nat
  opp_wins : Nat
  opp_losses : Nat
  opponents : List Name
  placements : List (Nat × Nat)
deriving DecidableEq

/-- Model of `Player::add_win` (line 70): a `u8` increment. -/
def add_win (p : Player) : Player := { p with wins := (p.wins + 1) % 256 }

/-- Model of `Player::add_loss` (line 74). -/
def add_loss (p : Player) : Player := { p with losses := (p.losses + 1) % 256 }

/-- Model of `Player::add_opponent_win` (line 78). -/
def add_opponent_win (p : Player) : Player :=
  { p with opp_wins := (p.opp_wins + 1) % 256 }

/-- Model of `Player::add_opponent_loss` (line 82). -/
def add_opponent_loss (p : Player) : Player :=
  { p with opp_losses := (p.opp_losses + 1) % 256 }

/-- Model of `self.placements.entry(place).or_insert(0) += 1`: bump the
count of key `k`, inserting it with count 1 when absent.  The counts are
`usize`; a run evaluates at most `2^63` outcomes so they never wrap, and
they are modelled as plain `Nat`. -/
def bumpCount (k : Nat) : List (Nat × Nat) → List (Nat × Nat)
  | [] => [(k, 1)]
  | (k', c) :: rest => if k' = k then (k', c + 1) :: rest else (k', c) :: bumpCount k rest

/-- Model of `Player::add_placement` (line 66). -/
def add_placement (place : Nat) (p : Player) : Player :=
  { p with placements := bumpCount place p.placements }

/-- Model of the `HashMap<String, Player>` registry: a list of records in
iteration order, keyed by the `name` field. -/
abbrev Registry := List Player

/-- Lookup of the record keyed by `n`. -/
def find_player (L : Registry) (n : Name) : Option Player :=
  L.find? (fun p => p.name == n)

/-- Model of `entry(n).and_modify(f)`: rewrite the record keyed `n` through
`f`, a silent no-op when no such record exists. -/
def modifyEntry (n : Name) (f : Player → Player) (L : Registry) : Registry :=
  L.map (fun p => if p.name = n then f p else p)

/-- Denominator of `opponent_winrate` (line 127): the `u8` sum
`p.opp_wins + p.opp_losses`, which wraps modulo 256. -/
def rateDen (p : Player) : Nat := (p.opp_wins + p.opp_losses) % 256

/-- Predicate for an opponent winrate of NaN: the f32 quotient
`opp_wins / (opp_wins + opp_losses)` is `0.0 / 0.0`. -/
def nanRate (p : Player) : Prop := p.opp_wins = 0 ∧ rateDen p = 0

instance (p : Player) : Decidable (nanRate p) := by
  unfold nanRate; exact inferInstance

/-- Model of `f32::partial_cmp` applied to the two `opponent_winrate`
values of lines 126-137.  The quotient is NaN exactly when `opp_wins = 0`
and the `u8` denominator is `0` (then `partial_cmp` is `None`, modelled as
`none`); with `opp_wins > 0` and denominator `0` it is `+inf`, which
compares greater than every finite quotient and equal to `+inf`.  In the
finite cases the numerators and denominators are `u8` values below 256, so
distinct exact quotients lie more than one f32 ulp apart and IEEE rounding
is monotone: the f32 comparison coincides with the exact rational
comparison, done here by cross-multiplication. -/
def winrate_cmp (p1 p2 : Player) : Option Ordering :=
  if nanRate p1 ∨ nanRate p2 then none
  else if rateDen p1 = 0 then
    (if rateDen p2 = 0 then some .eq else some .gt)
  else if rateDen p2 = 0 then some .lt
  else some (compare (p1.opp_wins * rateDen p2) (p2.opp_wins * rateDen p1))

/-- Model of `rank_players` (lines 131-137).  Both winrates are computed
before `cmp` runs, so the `unwrap` (modelled by `Option`) fires whenever
either winrate is NaN, regardless of the wins comparison. -/
def rank_players (p1 p2 : Player) : Option Ordering :=
  (winrate_cmp p1 p2).map (fun o => (compare p1.wins p2.wins).then o)

/-- Totalisation of the comparator closure of line 264,
`rank_players(p1, p2).reverse()`.  The default branch is reachable only
when `rank_players` would panic, which `simulate` guards separately. -/
def rank_rev (p1 p2 : Player) : Ordering :=
  ((rank_players p1 p2).getD .eq).swap

/-- One step of a stable insertion sort: `x` is placed before the first
element `y` with `c x y ≠ .gt`. -/
def insertBy (c : Player → Player → Ordering) (x : Player) : List Player → List Player
  | [] => [x]
  | y :: ys => if c x y = .gt then y :: insertBy c x ys else x :: y :: ys

/-- Stable sort by a comparator.  Rust's `slice::sort_by` is documented
stable, and a stable comparison sort is determined up to the comparator, so
insertion sort models it faithfully. -/
def sortBy (c : Player → Player → Ordering) : List Player → List Player
  | [] => []
  | x :: xs => insertBy c x (sortBy c xs)

/-- Winner/loser selection of lines 233-237: bit `j` of `iteration`
selects the winner of match `m`; `iteration & (1 << j) == 0` makes the
first-listed player the winner. -/
def select_winner (iteration j : Nat) (m : Name × Name) : Name × Name :=
  if iteration &&& (1 <<< j) = 0 then (m.1, m.2) else (m.2, m.1)

/-- Canonicalisation of one match on load (lines 168-172 of
`read_matches`): the lexicographically greater name is listed first.
Rust's `String::cmp` is lexicographic on the character sequence, modelled
as the lexicographic order on the underlying character list. -/
def canonical_pair (p1 p2 : Name) : Name × Name :=
  if p2.data < p1.data then (p1, p2) else (p2, p1)

/-- Winner half of the propagation (lines 240-249): increment the winner's
wins, then `opp_wins` of every name on the winner's opponent list;
`entry(..).and_modify` silently skips names with no record, including an
absent winner. -/
def apply_win (w : Name) (L : Registry) : Registry :=
  match find_player L w with
  | none => L
  | some p => p.opponents.foldl (fun acc o => modifyEntry o add_opponent_win acc)
      (modifyEntry w add_win L)

/-- Loser half of the propagation (lines 251-260), symmetric to
`apply_win`. -/
def apply_loss (l : Name) (L : Registry) : Registry :=
  match find_player L l with
  | none => L
  | some p => p.opponents.foldl (fun acc o => modifyEntry o add_opponent_loss acc)
      (modifyEntry l add_loss L)

/-- Propagation of one (winner, loser) match: the body of the match loop,
lines 239-260. -/
def propagate (w l : Name) (L : Registry) : Registry := apply_loss l (apply_win w L)

/-- The match loop of `simulate` (lines 232-261): matches are enumerated
in list order and bit `j` of the iteration index selects each winner. -/
def apply_matches (iteration : Nat) (ms : List (Name × Name)) (L : Registry) : Registry :=
  ms.enum.foldl (fun acc jm =>
    let wl := select_winner iteration jm.1 jm.2
    propagate wl.1 wl.2 acc) L

/-- The sorted ranking of line 262-264: the snapshot's values sorted with
the reversed comparator. -/
def ranking_of (snapshot : Registry) : List Player := sortBy rank_rev snapshot

/-- Guard under which the ranking sort panics: a sort of two or more
elements compares every element at least once, and `rank_players` unwraps
`None` whenever either argument's winrate is NaN; a list of fewer than two
elements is returned without any comparison. -/
def sortPanics (snapshot : Registry) : Prop :=
  2 ≤ snapshot.length ∧ ∃ p ∈ snapshot, nanRate p

instance (snapshot : Registry) : Decidable (sortPanics snapshot) := by
  unfold sortPanics; exact inferInstance

/-- The placement-recording loop of lines 265-269: each (0-based rank,
player) entry records rank + 1 for the record of that name in the
persistent registry. -/
def place_fold (pairs : List (Nat × Player)) (M : Registry) : Registry :=
  pairs.foldl (fun acc rp => modifyEntry rp.2.name (add_placement (rp.1 + 1)) acc) M

/-- Model of `simulate` (lines 225-273).  `players.clone()` gives the
snapshot its independent deep copy; mutation of the copy never touches the
persistent registry, so the clone is the identity on the value passed to
the match loop.  The result is `none` when the ranking sort would panic;
otherwise the first `top_ranks` entries of the ranking record a placement
(rank is 1-based) in the persistent registry. -/
def simulate (iteration top_ranks : Nat) (ms : List (Name × Name))
    (players : Registry) : Option Registry :=
  let snapshot := apply_matches iteration ms players
  if sortPanics snapshot then none
  else some (place_fold ((ranking_of snapshot).enum.take top_ranks) players)

/-- Top-K standings of one outcome, as a list of names (the first
`top_ranks` entries of the ranking, lines 262-265). -/
def outcome_standings (iteration top_ranks : Nat) (ms : List (Name × Name))
    (L : Registry) : Option (List Name) :=
  let snapshot := apply_matches iteration ms L
  if sortPanics snapshot then none
  else some ((((ranking_of snapshot).enum.take top_ranks).map (fun rp => rp.2.name)))

/-- Simulation count chosen by `main` (lines 198-201):
`min(1 << matches.len(), simulation_count.unwrap_or(usize::MAX))`. -/
def num_simulations (m : Nat) (cap : Option Nat) : Nat :=
  min (1 <<< m) (cap.getD (2 ^ 64 - 1))

/-- The first `n` iterations of the main loop (lines 202-204), threading
the persistent registry; `none` once any iteration panics. -/
def run_sim (top_ranks : Nat) (ms : List (Name × Name)) (L : Registry) :
    Nat → Option Registry
  | 0 => some L
  | n + 1 => (run_sim top_ranks ms L n).bind (simulate n top_ranks ms)

/-- The (winner, loser) pairs of one outcome, in match-list order. -/
def outcome_pairs (iteration : Nat) (ms : List (Name × Name)) : List (Name × Name) :=
  ms.enum.map (fun jm => select_winner iteration jm.1 jm.2)

/-- Application of a list of (winner, loser) pairs in order. -/
def apply_all (pairs : List (Name × Name)) (L : Registry) : Registry :=
  pairs.foldl (fun acc wl => propagate wl.1 wl.2 acc) L

/-! ### Normal form of the propagation

Every propagation step is a composition of single-field `u8` increments on
records looked up by name, and the lookups consult only fields
(name, opponents, presence) that the increments never change.  The steps
therefore collapse to one `List.map` of field-wise bumps whose amounts are
read off the starting registry. -/

/-- A `u8` counter after `d` unit increments: each increment is `+1` then
`% 256`, and composing them is addition under one `% 256` (no `mod` is
taken when no increment happened). -/
def u8bump (d x : Nat) : Nat := if d = 0 then x else (x + d) % 256

/-- Simultaneous bump of the four counters; the identity on `name`,
`opponents` and `placements`. -/
def bumpFields (dw dl dow dol : Nat) (p : Player) : Player :=
  { p with
    wins := u8bump dw p.wins
    losses := u8bump dl p.losses
    opp_wins := u8bump dow p.opp_wins
    opp_losses := u8bump dol p.opp_losses }

/-- Per-record deltas of the winner half of one match: how much the
wins / opp-wins counters of the record named `n` grow when `w` wins. -/
def win_delta (L : Registry) (w n : Name) : Nat × Nat :=
  match find_player L w with
  | none => (0, 0)
  | some p => (if n = w then 1 else 0, p.opponents.count n)

/-- Per-record deltas of the loser half of one match. -/
def loss_delta (L : Registry) (l n : Name) : Nat × Nat :=
  match find_player L l with
  | none => (0, 0)
  | some p => (if n = l then 1 else 0, p.opponents.count n)

/-- Total wins delta of the record named `n` over a list of (winner,
loser) pairs, read off the starting registry. -/
def sum_wins (L : Registry) (pairs : List (Name × Name)) (n : Name) : Nat :=
  (pairs.map (fun wl => (win_delta L wl.1 n).1)).sum

/-- Total losses delta over a list of pairs. -/
def sum_losses (L : Registry) (pairs : List (Name × Name)) (n : Name) : Nat :=
  (pairs.map (fun wl => (loss_delta L wl.2 n).1)).sum

/-- Total opponent-wins delta over a list of pairs. -/
def sum_opp_wins (L : Registry) (pairs : List (Name × Name)) (n : Name) : Nat :=
  (pairs.map (fun wl => (win_delta L wl.1 n).2)).sum

/-- Total opponent-losses delta over a list of pairs. -/
def sum_opp_losses (L : Registry) (pairs : List (Name × Name)) (n : Name) : Nat :=
  (pairs.map (fun wl => (loss_delta L wl.2 n).2)).sum

/-- Projection to the load-time baseline of a record: every field except
`placements`. -/
def base_view (p : Player) : Name × Nat × Nat × Nat × Nat × List Name :=
  (p.name, p.wins, p.losses, p.opp_wins, p.opp_losses, p.opponents)

/-- Record with an empty placements map. -/
def clear_placements (p : Player) : Player := { p with placements := [] }

/-- Modelled from the spec (sections 3 and 4.3): the snapshot the spec
asks for, a clone of the registry's current win/loss/opponent-stat
baseline and opponent lists but not of its placements. -/
def spec_snapshot (L : Registry) : Registry := L.map clear_placements

/-- Model of `players.clone()` (line 231): a deep copy of every record,
including its `placements` field. -/
def players_copy (L : Registry) : Registry := L

/-- Modelled from the spec (section 4.2): the opponent win rate as exact
division, opponentWins / (opponentWins + opponentLosses). -/
def spec_rate (p : Player) : ℚ :=
  (p.opp_wins : ℚ) / ((p.opp_wins : ℚ) + (p.opp_losses : ℚ))

/-- Modelled from the spec (section 4.2): order two snapshots by total
wins ascending, then by opponent win rate ascending. -/
def spec_rank (p1 p2 : Player) : Ordering :=
  (compare p1.wins p2.wins).then
    (if spec_rate p1 < spec_rate p2 then Ordering.lt
      else if spec_rate p2 < spec_rate p1 then Ordering.gt else Ordering.eq)

/-- Modelled from the spec (sections 4.2 and 4.3): standings obtained by
sorting with the spec comparator reversed and taking the first K names. -/
def spec_standings (K : Nat) (snapshot : Registry) : List Name :=
  ((sortBy (fun p1 p2 => (spec_rank p1 p2).swap) snapshot).take K).map Player.name

/-- Total number of placement counts recorded in one placements map. -/
def placements_total (p : Player) : Nat := (p.placements.map Prod.snd).sum

/-- Total number of placement counts recorded across a registry. -/
def total_placements (M : Registry) : Nat := (M.map placements_total).sum

/-- Per-player histogram lookup: the count recorded for rank `r` of the
player named `n` (0 when absent), the content of the final report. -/
def placement_count (M : Registry) (n : Name) (r : Nat) : Nat :=
  match find_player M n with
  | none => 0
  | some p =>
    match p.placements.find? (fun kv => kv.1 == r) with
    | none => 0
    | some kv => kv.2

theorem u8bump_zero (x : Nat) : u8bump 0 x = x := rfl

theorem u8bump_comp (a b x : Nat) : u8bump a (u8bump b x) = u8bump (b + a) x := by
  unfold u8bump
  by_cases ha : a = 0
  · subst ha; simp
  · by_cases hb : b = 0
    · subst hb; simp [ha]
    · have hab : ¬ b + a = 0 := by omega
      simp only [if_neg ha, if_neg hb, if_neg hab, Nat.mod_add_mod, Nat.add_assoc]

theorem u8bump_ite (c : Prop) [Decidable c] (x : Nat) :
    u8bump (if c then 1 else 0) x = if c then (x + 1) % 256 else x := by
  by_cases h : c <;> simp [u8bump, h]

theorem bumpFields_zero (p : Player) : bumpFields 0 0 0 0 p = p := rfl

theorem bumpFields_comp (a b c d a' b' c' d' : Nat) (p : Player) :
    bumpFields a b c d (bumpFields a' b' c' d' p) =
      bumpFields (a' + a) (b' + b) (c' + c) (d' + d) p := by
  simp [bumpFields, u8bump_comp]

@[simp] theorem bumpFields_name (a b c d : Nat) (p : Player) :
    (bumpFields a b c d p).name = p.name := rfl

@[simp] theorem bumpFields_opponents (a b c d : Nat) (p : Player) :
    (bumpFields a b c d p).opponents = p.opponents := rfl

@[simp] theorem bumpFields_placements (a b c d : Nat) (p : Player) :
    (bumpFields a b c d p).placements = p.placements := rfl

theorem add_win_eq_bump : add_win = bumpFields 1 0 0 0 := by
  funext p; simp [add_win, bumpFields, u8bump]

theorem add_loss_eq_bump : add_loss = bumpFields 0 1 0 0 := by
  funext p; simp [add_loss, bumpFields, u8bump]

theorem add_opponent_win_eq_bump : add_opponent_win = bumpFields 0 0 1 0 := by
  funext p; simp [add_opponent_win, bumpFields, u8bump]

theorem add_opponent_loss_eq_bump : add_opponent_loss = bumpFields 0 0 0 1 := by
  funext p; simp [add_opponent_loss, bumpFields, u8bump]

theorem modifyEntry_bump (n : Name) (a b c d : Nat) (L : Registry) :
    modifyEntry n (bumpFields a b c d) L =
      L.map (fun p => bumpFields (if p.name = n then a else 0)
        (if p.name = n then b else 0) (if p.name = n then c else 0)
        (if p.name = n then d else 0) p) := by
  unfold modifyEntry
  apply List.map_congr_left
  intro p _
  by_cases h : p.name = n <;> simp [h, bumpFields_zero]

theorem foldl_modifyEntry_bump (a b c d : Nat) (opps : List Name) (L : Registry) :
    opps.foldl (fun acc o => modifyEntry o (bumpFields a b c d) acc) L =
      L.map (fun p => bumpFields (opps.count p.name * a) (opps.count p.name * b)
        (opps.count p.name * c) (opps.count p.name * d) p) := by
  induction opps generalizing L with
  | nil =>
    simp only [List.foldl_nil, List.count_nil, Nat.zero_mul]
    conv_rhs => rw [show (fun p => bumpFields 0 0 0 0 p) = id by funext p; simp [bumpFields_zero]]
    rw [List.map_id]
  | cons o os ih =>
    rw [List.foldl_cons, ih, modifyEntry_bump, List.map_map]
    apply List.map_congr_left
    intro p _
    simp only [Function.comp_apply, bumpFields_name, bumpFields_comp]
    have hcount : (o :: os).count p.name = os.count p.name + (if p.name = o then 1 else 0) := by
      rw [List.count_cons]
      by_cases h : p.name = o
      · simp [h]
      · have h' : ¬ o = p.name := fun hh => h hh.symm
        simp [h, h']
    rw [hcount]
    by_cases h : p.name = o
    · simp [h]
      ring_nf
    · have h' : ¬ o = p.name := fun hh => h hh.symm
      simp [h, h']

theorem apply_win_eq (w : Name) (L : Registry) :
    apply_win w L = L.map (fun p =>
      bumpFields (win_delta L w p.name).1 0 (win_delta L w p.name).2 0 p) := by
  unfold apply_win win_delta
  cases h : find_player L w with
  | none =>
    simp only [h]
    conv_rhs => rw [show (fun p : Player => bumpFields 0 0 0 0 p) = id by
      funext p; simp [bumpFields_zero]]
    rw [List.map_id]
  | some q =>
    simp only [h]
    rw [add_opponent_win_eq_bump, add_win_eq_bump, modifyEntry_bump,
      foldl_modifyEntry_bump, List.map_map]
    apply List.map_congr_left
    intro p _
    simp only [Function.comp_apply, bumpFields_name, bumpFields_comp]
    by_cases hp : p.name = w <;> simp [hp]

theorem apply_loss_eq (l : Name) (L : Registry) :
    apply_loss l L = L.map (fun p =>
      bumpFields 0 (loss_delta L l p.name).1 0 (loss_delta L l p.name).2 p) := by
  unfold apply_loss loss_delta
  cases h : find_player L l with
  | none =>
    simp only [h]
    conv_rhs => rw [show (fun p : Player => bumpFields 0 0 0 0 p) = id by
      funext p; simp [bumpFields_zero]]
    rw [List.map_id]
  | some q =>
    simp only [h]
    rw [add_opponent_loss_eq_bump, add_loss_eq_bump, modifyEntry_bump,
      foldl_modifyEntry_bump, List.map_map]
    apply List.map_congr_left
    intro p _
    simp only [Function.comp_apply, bumpFields_name, bumpFields_comp]
    by_cases hp : p.name = l <;> simp [hp]

theorem find_player_map (L : Registry) (n : Name) (g : Player → Player)
    (hg : ∀ p, (g p).name = p.name) :
    find_player (L.map g) n = (find_player L n).map g := by
  unfold find_player
  rw [List.find?_map]
  have hpred : ((fun p : Player => p.name == n) ∘ g) = (fun p : Player => p.name == n) := by
    funext p; simp [Function.comp_apply, hg]
  rw [hpred]

theorem win_delta_map (L : Registry) (w n : Name) (g : Player → Player)
    (hg : ∀ p, (g p).name = p.name) (hg2 : ∀ p, (g p).opponents = p.opponents) :
    win_delta (L.map g) w n = win_delta L w n := by
  unfold win_delta
  rw [find_player_map L w g hg]
  cases find_player L w with
  | none => rfl
  | some q => simp [hg2]

theorem loss_delta_map (L : Registry) (l n : Name) (g : Player → Player)
    (hg : ∀ p, (g p).name = p.name) (hg2 : ∀ p, (g p).opponents = p.opponents) :
    loss_delta (L.map g) l n = loss_delta L l n := by
  unfold loss_delta
  rw [find_player_map L l g hg]
  cases find_player L l with
  | none => rfl
  | some q => simp [hg2]

theorem propagate_eq (w l : Name) (L : Registry) :
    propagate w l L = L.map (fun p =>
      bumpFields (win_delta L w p.name).1 (loss_delta L l p.name).1
        (win_delta L w p.name).2 (loss_delta L l p.name).2 p) := by
  unfold propagate
  rw [apply_win_eq, apply_loss_eq, List.map_map]
  have hld : ∀ n, loss_delta (L.map (fun p =>
      bumpFields (win_delta L w p.name).1 0 (win_delta L w p.name).2 0 p)) l n =
      loss_delta L l n := by
    intro n
    exact loss_delta_map L l n _ (fun p => rfl) (fun p => rfl)
  simp only [hld]
  apply List.map_congr_left
  intro p _
  simp only [Function.comp_apply, bumpFields_name, bumpFields_comp]
  ring_nf

theorem apply_matches_eq (i : Nat) (ms : List (Name × Name)) (L : Registry) :
    apply_matches i ms L = apply_all (outcome_pairs i ms) L := by
  unfold apply_matches apply_all outcome_pairs
  rw [List.foldl_map]

theorem win_delta_propagate (w' l' w n : Name) (L : Registry) :
    win_delta (propagate w' l' L) w n = win_delta L w n := by
  rw [propagate_eq]
  exact win_delta_map L w n _ (fun p => rfl) (fun p => rfl)

theorem loss_delta_propagate (w' l' l n : Name) (L : Registry) :
    loss_delta (propagate w' l' L) l n = loss_delta L l n := by
  rw [propagate_eq]
  exact loss_delta_map L l n _ (fun p => rfl) (fun p => rfl)

theorem sum_wins_propagate (w' l' : Name) (pairs : List (Name × Name)) (n : Name)
    (L : Registry) : sum_wins (propagate w' l' L) pairs n = sum_wins L pairs n := by
  unfold sum_wins
  congr 1
  exact List.map_congr_left (fun wl _ => by rw [win_delta_propagate])

theorem sum_losses_propagate (w' l' : Name) (pairs : List (Name × Name)) (n : Name)
    (L : Registry) : sum_losses (propagate w' l' L) pairs n = sum_losses L pairs n := by
  unfold sum_losses
  congr 1
  exact List.map_congr_left (fun wl _ => by rw [loss_delta_propagate])

theorem sum_opp_wins_propagate (w' l' : Name) (pairs : List (Name × Name)) (n : Name)
    (L : Registry) : sum_opp_wins (propagate w' l' L) pairs n = sum_opp_wins L pairs n := by
  unfold sum_opp_wins
  congr 1
  exact List.map_congr_left (fun wl _ => by rw [win_delta_propagate])

theorem sum_opp_losses_propagate (w' l' : Name) (pairs : List (Name × Name)) (n : Name)
    (L : Registry) : sum_opp_losses (propagate w' l' L) pairs n = sum_opp_losses L pairs n := by
  unfold sum_opp_losses
  congr 1
  exact List.map_congr_left (fun wl _ => by rw [loss_delta_propagate])

/-- Normal form of one whole outcome application: a single map of
field-wise bumps whose amounts are read off the starting registry. -/
theorem apply_all_eq (pairs : List (Name × Name)) (L : Registry) :
    apply_all pairs L = L.map (fun p =>
      bumpFields (sum_wins L pairs p.name) (sum_losses L pairs p.name)
        (sum_opp_wins L pairs p.name) (sum_opp_losses L pairs p.name) p) := by
  induction pairs generalizing L with
  | nil =>
    simp only [apply_all, List.foldl_nil, sum_wins, sum_losses, sum_opp_wins,
      sum_opp_losses, List.map_nil, List.sum_nil]
    conv_rhs => rw [show (fun p : Player => bumpFields 0 0 0 0 p) = id by
      funext p; simp [bumpFields_zero]]
    rw [List.map_id]
  | cons wl rest ih =>
    have hstep : apply_all (wl :: rest) L = apply_all rest (propagate wl.1 wl.2 L) := rfl
    rw [hstep, ih]
    simp only [sum_wins_propagate, sum_losses_propagate, sum_opp_wins_propagate,
      sum_opp_losses_propagate]
    rw [propagate_eq, List.map_map]
    apply List.map_congr_left
    intro p _
    simp only [Function.comp_apply, bumpFields_name, bumpFields_comp]
    simp only [sum_wins, sum_losses, sum_opp_wins, sum_opp_losses, List.map_cons,
      List.sum_cons]

theorem apply_all_perm (pairs₁ pairs₂ : List (Name × Name)) (L : Registry)
    (h : pairs₁.Perm pairs₂) : apply_all pairs₁ L = apply_all pairs₂ L := by
  rw [apply_all_eq, apply_all_eq]
  apply List.map_congr_left
  intro p _
  have h1 : sum_wins L pairs₁ p.name = sum_wins L pairs₂ p.name :=
    (h.map _).sum_eq
  have h2 : sum_losses L pairs₁ p.name = sum_losses L pairs₂ p.name :=
    (h.map _).sum_eq
  have h3 : sum_opp_wins L pairs₁ p.name = sum_opp_wins L pairs₂ p.name :=
    (h.map _).sum_eq
  have h4 : sum_opp_losses L pairs₁ p.name = sum_opp_losses L pairs₂ p.name :=
    (h.map _).sum_eq
  rw [h1, h2, h3, h4]

/-! ### Stable sort lemmas -/

theorem insertBy_perm (c : Player → Player → Ordering) (x : Player) (l : List Player) :
    (insertBy c x l).Perm (x :: l) := by
  induction l with
  | nil => exact List.Perm.refl _
  | cons y ys ih =>
    unfold insertBy
    by_cases h : c x y = .gt
    · rw [if_pos h]
      exact (ih.cons y).trans (List.Perm.swap x y ys)
    · rw [if_neg h]

theorem sortBy_perm (c : Player → Player → Ordering) (l : List Player) :
    (sortBy c l).Perm l := by
  induction l with
  | nil => exact List.Perm.refl _
  | cons x xs ih => exact (insertBy_perm c x (sortBy c xs)).trans (ih.cons x)

theorem insertBy_congr (c₁ c₂ : Player → Player → Ordering) (x : Player) (l : List Player)
    (h : ∀ b ∈ l, c₁ x b = c₂ x b) : insertBy c₁ x l = insertBy c₂ x l := by
  induction l with
  | nil => rfl
  | cons y ys ih =>
    unfold insertBy
    rw [h y (List.mem_cons_self y ys)]
    by_cases hc : c₂ x y = .gt
    · rw [if_pos hc, if_pos hc, ih (fun b hb => h b (List.mem_cons_of_mem y hb))]
    · rw [if_neg hc, if_neg hc]

theorem sortBy_congr (c₁ c₂ : Player → Player → Ordering) (l : List Player)
    (h : ∀ a ∈ l, ∀ b ∈ l, c₁ a b = c₂ a b) : sortBy c₁ l = sortBy c₂ l := by
  induction l with
  | nil => rfl
  | cons x xs ih =>
    unfold sortBy
    rw [ih (fun a ha b hb =>
      h a (List.mem_cons_of_mem x ha) b (List.mem_cons_of_mem x hb))]
    exact insertBy_congr c₁ c₂ x (sortBy c₂ xs) (fun b hb =>
      h x (List.mem_cons_self x xs) b
        (List.mem_cons_of_mem x ((sortBy_perm c₂ xs).mem_iff.mp hb)))

theorem insertBy_map (c : Player → Player → Ordering) (g : Player → Player)
    (hg : ∀ a b, c (g a) (g b) = c a b) (x : Player) (l : List Player) :
    insertBy c (g x) (l.map g) = (insertBy c x l).map g := by
  induction l with
  | nil => rfl
  | cons y ys ih =>
    simp only [List.map_cons, insertBy]
    rw [hg]
    by_cases hc : c x y = .gt
    · rw [if_pos hc, if_pos hc, ih, List.map_cons]
    · rw [if_neg hc, if_neg hc, List.map_cons, List.map_cons]

theorem sortBy_map (c : Player → Player → Ordering) (g : Player → Player)
    (hg : ∀ a b, c (g a) (g b) = c a b) (l : List Player) :
    sortBy c (l.map g) = (sortBy c l).map g := by
  induction l with
  | nil => rfl
  | cons x xs ih =>
    unfold sortBy
    rw [List.map_cons]
    show insertBy c (g x) (sortBy c (xs.map g)) = _
    rw [ih, insertBy_map c g hg]

theorem standings_names_take (l : List Player) (K : Nat) :
    ((l.enum.take K).map (fun rp => rp.2.name)) = (l.take K).map Player.name := by
  have h2 : ((l.enum.take K).map Prod.snd) = l.take K := by
    rw [List.map_take, List.enum_map_snd]
  calc ((l.enum.take K).map (fun rp => rp.2.name))
      = (((l.enum.take K).map Prod.snd).map Player.name) := by rw [List.map_map]; rfl
    _ = (l.take K).map Player.name := by rw [h2]

/-! ### Claims -/

/-- Claim C1: refuted by the code (code bug).  When a player's opponents
have zero combined recorded games, the comparator computes the winrate
`0.0 / 0.0 = NaN`; `partial_cmp` then returns `None` and the `unwrap` of
line 136 panics.  Here a comparison involving such a player reaches the
error branch (`none`), so the claimed sentinel ordering does not exist
and the error branch is reachable. -/
theorem c1_zero_games_comparison_panics :
    rank_players ⟨"A", 0, 0, 0, 0, ["B", "C", "D", "E"], []⟩
      ⟨"B", 1, 0, 3, 1, ["A", "C", "D", "E"], []⟩ = none := by
  decide

/-- Claim C4: confirmed.  With M ≤ 63 matches the driver enumerates
exactly `min(requested cap, 2^M)` outcome indices, silently clamps a cap
above the space size to `2^M`, defaults a missing cap (usize::MAX) to the
full space `2^M`, and `M = 0` yields exactly one outcome. -/
theorem c4_simulation_count (M cap : Nat) (hM : M ≤ 63) :
    num_simulations M (some cap) = min cap (2 ^ M)
    ∧ (2 ^ M ≤ cap → num_simulations M (some cap) = 2 ^ M)
    ∧ num_simulations M none = 2 ^ M
    ∧ (List.range (num_simulations M (some cap))).length = min cap (2 ^ M)
    ∧ num_simulations 0 none = 1 := by
  have hshift : (1 : Nat) <<< M = 2 ^ M := by rw [Nat.shiftLeft_eq, one_mul]
  have hfull : 2 ^ M ≤ 2 ^ 64 - 1 := by
    calc 2 ^ M ≤ 2 ^ 63 := Nat.pow_le_pow_right (by norm_num) hM
    _ ≤ 2 ^ 64 - 1 := by norm_num
  refine ⟨?_, ?_, ?_, ?_, ?_⟩
  · unfold num_simulations
    rw [hshift, Option.getD_some, Nat.min_comm]
  · intro hcap
    unfold num_simulations
    rw [hshift, Option.getD_some]
    exact Nat.min_eq_left hcap
  · unfold num_simulations
    rw [hshift, Option.getD_none]
    exact Nat.min_eq_left hfull
  · rw [List.length_range]
    unfold num_simulations
    rw [hshift, Option.getD_some, Nat.min_comm]
  · decide

/-- Witness for C4 at M = 3, cap = 100. -/
theorem c4_witness :
    3 ≤ 63
    ∧ (num_simulations 3 (some 100) = min 100 (2 ^ 3)
      ∧ (2 ^ 3 ≤ 100 → num_simulations 3 (some 100) = 2 ^ 3)
      ∧ num_simulations 3 none = 2 ^ 3
      ∧ (List.range (num_simulations 3 (some 100))).length = min 100 (2 ^ 3)
      ∧ num_simulations 0 none = 1) :=
  ⟨by decide, c4_simulation_count 3 100 (by decide)⟩

theorem and_pow_zero_iff (i j : Nat) : i &&& (1 <<< j) = 0 ↔ i / 2 ^ j % 2 = 0 := by
  rw [Nat.shiftLeft_eq, one_mul, Nat.and_two_pow]
  cases h : i.testBit j with
  | false =>
    have hmod : ¬ i / 2 ^ j % 2 = 1 := by
      have := Nat.testBit_to_div_mod (x := i) (i := j)
      rw [h] at this
      exact of_decide_eq_false this.symm
    simp only [Bool.toNat_false, Nat.zero_mul]
    constructor
    · intro _; omega
    · intro _; trivial
  | true =>
    have hmod : i / 2 ^ j % 2 = 1 := by
      have := Nat.testBit_to_div_mod (x := i) (i := j)
      rw [h] at this
      exact of_decide_eq_true this.symm
    simp only [Bool.toNat_true, Nat.one_mul]
    constructor
    · intro hz
      exact absurd hz (Nat.pos_iff_ne_zero.mp (Nat.pos_pow_of_pos j (by norm_num)))
    · intro hz; omega

/-- Claim C5: confirmed.  A canonical pair lists the lexicographically
greater name first, and bit `j` of outcome index `i` selects the winner
of match `j`: bit 0 means the first-listed player wins, bit 1 the
second-listed. -/
theorem c5_bit_selects_winner (i j : Nat) (p q : Name) :
    ¬ (canonical_pair p q).1.data < (canonical_pair p q).2.data
    ∧ (i / 2 ^ j % 2 = 0 →
        select_winner i j (canonical_pair p q) =
          ((canonical_pair p q).1, (canonical_pair p q).2))
    ∧ (i / 2 ^ j % 2 = 1 →
        select_winner i j (canonical_pair p q) =
          ((canonical_pair p q).2, (canonical_pair p q).1)) := by
  refine ⟨?_, ?_, ?_⟩
  · unfold canonical_pair
    by_cases h : q.data < p.data
    · rw [if_pos h]
      exact lt_asymm h
    · rw [if_neg h]
      exact h
  · intro hbit
    unfold select_winner
    rw [if_pos ((and_pow_zero_iff i j).mpr hbit)]
  · intro hbit
    unfold select_winner
    rw [if_neg (fun hz => by
      have := (and_pow_zero_iff i j).mp hz
      omega)]

/-- Witness for C5: bit 1 of index 2 is set, so the second-listed player
of match 1 wins. -/
theorem c5_witness :
    2 / 2 ^ 1 % 2 = 1
    ∧ select_winner 2 1 (canonical_pair "A" "B") =
        ((canonical_pair "A" "B").2, (canonical_pair "A" "B").1) :=
  ⟨by decide, (c5_bit_selects_winner 2 1 "A" "B").2.2 (by decide)⟩

/-- Claim C3: confirmed.  Propagating one (winner, loser) match to a
snapshot containing both players performs exactly the claimed updates:
one u8 increment of the winner's wins and of the loser's losses, one
increment of a record's opp_wins per occurrence of its name on the
winner's opponent list and of opp_losses per occurrence on the loser's
list.  The map form shows no record is added or removed (opponent names
without a record are silently skipped) and that name, opponents and
placements of every record are untouched. -/
theorem c3_propagate_updates_exactly (w l : Name) (L : Registry) (pw pl : Player)
    (hw : find_player L w = some pw) (hl : find_player L l = some pl) :
    propagate w l L = L.map (fun p =>
      { p with
        wins := if p.name = w then (p.wins + 1) % 256 else p.wins
        losses := if p.name = l then (p.losses + 1) % 256 else p.losses
        opp_wins := u8bump (pw.opponents.count p.name) p.opp_wins
        opp_losses := u8bump (pl.opponents.count p.name) p.opp_losses }) := by
  rw [propagate_eq]
  apply List.map_congr_left
  intro p _
  unfold win_delta loss_delta
  rw [hw, hl]
  unfold bumpFields
  simp only [u8bump_ite]

/-- Witness for C3 on a three-player snapshot where B beats A; C appears
twice on B's opponent list and once on A's, and the opponent name Z has
no record and is skipped. -/
theorem c3_witness :
    find_player ([⟨"A", 1, 0, 2, 3, ["B", "C", "D", "E"], []⟩,
        ⟨"B", 0, 1, 4, 5, ["A", "C", "C", "Z"], []⟩,
        ⟨"C", 2, 2, 6, 7, ["A", "B", "D", "E"], []⟩] : Registry) "B" =
      some (⟨"B", 0, 1, 4, 5, ["A", "C", "C", "Z"], []⟩ : Player)
    ∧ find_player ([⟨"A", 1, 0, 2, 3, ["B", "C", "D", "E"], []⟩,
        ⟨"B", 0, 1, 4, 5, ["A", "C", "C", "Z"], []⟩,
        ⟨"C", 2, 2, 6, 7, ["A", "B", "D", "E"], []⟩] : Registry) "A" =
      some (⟨"A", 1, 0, 2, 3, ["B", "C", "D", "E"], []⟩ : Player)
    ∧ propagate "B" "A" ([⟨"A", 1, 0, 2, 3, ["B", "C", "D", "E"], []⟩,
        ⟨"B", 0, 1, 4, 5, ["A", "C", "C", "Z"], []⟩,
        ⟨"C", 2, 2, 6, 7, ["A", "B", "D", "E"], []⟩] : Registry) =
      ([⟨"A", 1, 1, 3, 3, ["B", "C", "D", "E"], []⟩,
        ⟨"B", 1, 1, 4, 6, ["A", "C", "C", "Z"], []⟩,
        ⟨"C", 2, 2, 8, 8, ["A", "B", "D", "E"], []⟩] : Registry) := by
  refine ⟨by decide, by decide, ?_⟩
  rw [c3_propagate_updates_exactly "B" "A" _
    ⟨"B", 0, 1, 4, 5, ["A", "C", "C", "Z"], []⟩
    ⟨"A", 1, 0, 2, 3, ["B", "C", "D", "E"], []⟩ (by decide) (by decide)]
  decide

/-- Claim C7, original form: refuted.  The fresh snapshot is built by
`players.clone()`, which deep-copies every field of every record,
including the accumulated `placements` histograms; it is not the
placement-free baseline copy the claim describes. -/
theorem c7_clone_copies_placements :
    players_copy [⟨"A", 3, 1, 2, 2, ["B", "C", "D", "E"], [(1, 2)]⟩] ≠
      spec_snapshot [⟨"A", 3, 1, 2, 2, ["B", "C", "D", "E"], [(1, 2)]⟩]
    ∧ (players_copy [⟨"A", 3, 1, 2, 2, ["B", "C", "D", "E"], [(1, 2)]⟩]).map
        Player.placements = [[(1, 2)]] := by
  decide

theorem win_delta_clear (L : Registry) (w n : Name) :
    win_delta (L.map clear_placements) w n = win_delta L w n :=
  win_delta_map L w n clear_placements (fun _ => rfl) (fun _ => rfl)

theorem loss_delta_clear (L : Registry) (l n : Name) :
    loss_delta (L.map clear_placements) l n = loss_delta L l n :=
  loss_delta_map L l n clear_placements (fun _ => rfl) (fun _ => rfl)

theorem apply_matches_clear (i : Nat) (ms : List (Name × Name)) (L : Registry) :
    apply_matches i ms (L.map clear_placements) =
      (apply_matches i ms L).map clear_placements := by
  rw [apply_matches_eq, apply_matches_eq, apply_all_eq, apply_all_eq]
  have hsw : ∀ n, sum_wins (L.map clear_placements) (outcome_pairs i ms) n =
      sum_wins L (outcome_pairs i ms) n := fun n => by
    unfold sum_wins
    exact congrArg List.sum (List.map_congr_left (fun wl _ => by rw [win_delta_clear]))
  have hsl : ∀ n, sum_losses (L.map clear_placements) (outcome_pairs i ms) n =
      sum_losses L (outcome_pairs i ms) n := fun n => by
    unfold sum_losses
    exact congrArg List.sum (List.map_congr_left (fun wl _ => by rw [loss_delta_clear]))
  have hsow : ∀ n, sum_opp_wins (L.map clear_placements) (outcome_pairs i ms) n =
      sum_opp_wins L (outcome_pairs i ms) n := fun n => by
    unfold sum_opp_wins
    exact congrArg List.sum (List.map_congr_left (fun wl _ => by rw [win_delta_clear]))
  have hsol : ∀ n, sum_opp_losses (L.map clear_placements) (outcome_pairs i ms) n =
      sum_opp_losses L (outcome_pairs i ms) n := fun n => by
    unfold sum_opp_losses
    exact congrArg List.sum (List.map_congr_left (fun wl _ => by rw [loss_delta_clear]))
  simp only [hsw, hsl, hsow, hsol, List.map_map]
  apply List.map_congr_left
  intro p _
  rfl

/-- Claim C7, amended: the snapshot is a full clone, but the per-outcome
standings read only the baseline and the outcome's bits: clearing every
placement histogram in the registry leaves the standings of every
iteration unchanged, so placements accumulated in earlier iterations can
never influence them. -/
theorem c7_standings_ignore_placements (i K : Nat) (ms : List (Name × Name))
    (L : Registry) :
    outcome_standings i K ms (players_copy L) =
      outcome_standings i K ms (spec_snapshot L) := by
  unfold outcome_standings players_copy spec_snapshot
  rw [show L.map clear_placements = (L.map clear_placements : Registry) from rfl]
  rw [apply_matches_clear]
  have hpanic : sortPanics ((apply_matches i ms L).map clear_placements) ↔
      sortPanics (apply_matches i ms L) := by
    unfold sortPanics
    rw [List.length_map]
    constructor
    · rintro ⟨hlen, p, hp, hnan⟩
      rcases List.mem_map.mp hp with ⟨q, hq, rfl⟩
      exact ⟨hlen, q, hq, hnan⟩
    · rintro ⟨hlen, p, hp, hnan⟩
      exact ⟨hlen, clear_placements p, List.mem_map_of_mem clear_placements hp, hnan⟩
  by_cases h : sortPanics (apply_matches i ms L)
  · rw [if_pos h, if_pos (hpanic.mpr h)]
  · rw [if_neg h, if_neg (fun hh => h (hpanic.mp hh))]
    have hrank : ranking_of ((apply_matches i ms L).map clear_placements) =
        (ranking_of (apply_matches i ms L)).map clear_placements := by
      unfold ranking_of
      exact sortBy_map rank_rev clear_placements (fun _ _ => rfl) _
    rw [hrank]
    rw [standings_names_take, standings_names_take]
    rw [← List.map_take]
    rw [List.map_map]
    rfl

/-- Claim C2: refuted (code bug).  Two players with equal wins and equal
defined opponent win rate tie under `rank_players`; the stable sort keeps
them in snapshot-iteration order, which is HashMap iteration order, not a
name-based order.  Running the same enumeration on the same player set
presented in two different iteration orders yields different per-player
placement histograms: player A records a first place in one run and none
in the other. -/
theorem c2_histograms_depend_on_hash_order :
    ([⟨"A", 0, 0, 1, 1, ["X", "X", "X", "X"], []⟩,
      ⟨"B", 0, 0, 1, 1, ["X", "X", "X", "X"], []⟩] : Registry).Perm
      [⟨"B", 0, 0, 1, 1, ["X", "X", "X", "X"], []⟩,
        ⟨"A", 0, 0, 1, 1, ["X", "X", "X", "X"], []⟩]
    ∧ rank_players ⟨"A", 0, 0, 1, 1, ["X", "X", "X", "X"], []⟩
        ⟨"B", 0, 0, 1, 1, ["X", "X", "X", "X"], []⟩ = some Ordering.eq
    ∧ (run_sim 2 [] [⟨"A", 0, 0, 1, 1, ["X", "X", "X", "X"], []⟩,
        ⟨"B", 0, 0, 1, 1, ["X", "X", "X", "X"], []⟩] 1).map
        (fun U => placement_count U "A" 1) = some 1
    ∧ (run_sim 2 [] [⟨"B", 0, 0, 1, 1, ["X", "X", "X", "X"], []⟩,
        ⟨"A", 0, 0, 1, 1, ["X", "X", "X", "X"], []⟩] 1).map
        (fun U => placement_count U "A" 1) = some 0 := by
  decide

/-- Claim C8: confirmed.  Applying the (winner, loser) pairs of one
outcome in any permuted order produces exactly the registry that the
code's in-order match loop produces: increments commute. -/
theorem c8_order_invariance (i : Nat) (ms pairs' : List (Name × Name)) (L : Registry)
    (h : (outcome_pairs i ms).Perm pairs') :
    apply_all pairs' L = apply_matches i ms L := by
  rw [apply_matches_eq]
  exact (apply_all_perm _ _ L h).symm

/-- Witness for C8: two matches applied in swapped order. -/
theorem c8_witness :
    (outcome_pairs 0 [("B", "A"), ("C", "A")]).Perm [("C", "A"), ("B", "A")]
    ∧ apply_all [("C", "A"), ("B", "A")]
        [⟨"A", 1, 0, 2, 3, ["B", "C", "D", "E"], []⟩,
          ⟨"B", 0, 1, 4, 5, ["A", "C", "C", "Z"], []⟩,
          ⟨"C", 2, 2, 6, 7, ["A", "B", "D", "E"], []⟩] =
      apply_matches 0 [("B", "A"), ("C", "A")]
        [⟨"A", 1, 0, 2, 3, ["B", "C", "D", "E"], []⟩,
          ⟨"B", 0, 1, 4, 5, ["A", "C", "C", "Z"], []⟩,
          ⟨"C", 2, 2, 6, 7, ["A", "B", "D", "E"], []⟩] :=
  ⟨by decide, c8_order_invariance 0 [("B", "A"), ("C", "A")] [("C", "A"), ("B", "A")] _
    (by decide)⟩

theorem rank_players_eq_spec (a b : Player)
    (ha : 0 < a.opp_wins + a.opp_losses) (ha2 : a.opp_wins + a.opp_losses ≤ 255)
    (hb : 0 < b.opp_wins + b.opp_losses) (hb2 : b.opp_wins + b.opp_losses ≤ 255) :
    rank_players a b = some (spec_rank a b) := by
  have hda : rateDen a = a.opp_wins + a.opp_losses := Nat.mod_eq_of_lt (by omega)
  have hdb : rateDen b = b.opp_wins + b.opp_losses := Nat.mod_eq_of_lt (by omega)
  have hna : ¬ nanRate a := fun hn => by unfold nanRate at hn; omega
  have hnb : ¬ nanRate b := fun hn => by unfold nanRate at hn; omega
  have hqa : (0 : ℚ) < (a.opp_wins : ℚ) + (a.opp_losses : ℚ) := by
    have : (0 : ℚ) < ((a.opp_wins + a.opp_losses : Nat) : ℚ) := by
      exact_mod_cast ha
    push_cast at this
    exact this
  have hqb : (0 : ℚ) < (b.opp_wins : ℚ) + (b.opp_losses : ℚ) := by
    have : (0 : ℚ) < ((b.opp_wins + b.opp_losses : Nat) : ℚ) := by
      exact_mod_cast hb
    push_cast at this
    exact this
  unfold rank_players winrate_cmp
  rw [if_neg (fun hor => hor.elim hna hnb), if_neg (by omega), if_neg (by omega)]
  unfold spec_rank
  simp only [Option.map_some']
  congr 1
  congr 1
  rcases lt_trichotomy (spec_rate a) (spec_rate b) with hlt | heq | hgt
  · rw [if_pos hlt]
    apply Nat.compare_eq_lt.mpr
    unfold spec_rate at hlt
    rw [div_lt_div_iff₀ hqa hqb] at hlt
    rw [hda, hdb]
    exact_mod_cast hlt
  · rw [heq, if_neg (lt_irrefl _), if_neg (lt_irrefl _)]
    apply Nat.compare_eq_eq.mpr
    unfold spec_rate at heq
    rw [div_eq_div_iff (ne_of_gt hqa) (ne_of_gt hqb)] at heq
    rw [hda, hdb]
    exact_mod_cast heq
  · rw [if_neg (not_lt.mpr (le_of_lt hgt)), if_pos hgt]
    apply Nat.compare_eq_gt.mpr
    unfold spec_rate at hgt
    rw [div_lt_div_iff₀ hqb hqa] at hgt
    rw [hda, hdb]
    exact_mod_cast hgt

/-- Claim C6, original form: refuted.  The denominator of the winrate is
the u8 sum of opponent wins and losses, which wraps modulo 256: with
opponent record 1-255 the sum wraps to 0 and the computed rate is `+inf`
rather than the claimed 1/256, so player P sorts above Q even though Q's
claimed rate 254/255 is far larger.  The code's standings and the
spec-formula standings disagree on this snapshot. -/
theorem c6_wrapped_denominator_breaks_rate_order :
    outcome_standings 0 2 []
      [⟨"P", 0, 0, 1, 255, [], []⟩, ⟨"Q", 0, 0, 254, 1, [], []⟩] = some ["P", "Q"]
    ∧ spec_standings 2
      [⟨"P", 0, 0, 1, 255, [], []⟩, ⟨"Q", 0, 0, 254, 1, [], []⟩] = ["Q", "P"]
    ∧ spec_rate ⟨"P", 0, 0, 1, 255, [], []⟩ < spec_rate ⟨"Q", 0, 0, 254, 1, [], []⟩
    ∧ (⟨"P", 0, 0, 1, 255, [], []⟩ : Player).wins =
        (⟨"Q", 0, 0, 254, 1, [], []⟩ : Player).wins := by
  have hlt : spec_rate (⟨"P", 0, 0, 1, 255, [], []⟩ : Player) <
      spec_rate ⟨"Q", 0, 0, 254, 1, [], []⟩ := by
    unfold spec_rate
    norm_num
  have hcmp : spec_rank (⟨"P", 0, 0, 1, 255, [], []⟩ : Player)
      ⟨"Q", 0, 0, 254, 1, [], []⟩ = Ordering.lt := by
    unfold spec_rank
    rw [if_pos hlt]
    rfl
  refine ⟨by decide, ?_, hlt, rfl⟩
  unfold spec_standings
  simp only [sortBy, insertBy, hcmp]
  rfl

/-- Claim C6, amended: whenever every snapshot player has a nonzero
opponent-games total no greater than 255 (so every rate is defined and no
u8 sum wraps), the ranking the driver computes is exactly the stable sort
by the reversed spec comparator: total wins ascending, then exact
opponent win rate opponentWins / (opponentWins + opponentLosses)
ascending, reversed to put highest wins and highest rate first. -/
theorem c6_standings_by_wins_then_rate (S : Registry)
    (h : ∀ p ∈ S, 0 < p.opp_wins + p.opp_losses ∧ p.opp_wins + p.opp_losses ≤ 255) :
    ranking_of S = sortBy (fun p1 p2 => (spec_rank p1 p2).swap) S := by
  unfold ranking_of
  apply sortBy_congr
  intro a ha b hb
  unfold rank_rev
  rw [rank_players_eq_spec a b (h a ha).1 (h a ha).2 (h b hb).1 (h b hb).2]
  rfl

/-- Witness for C6 (amended) on a two-player snapshot with defined,
non-wrapping rates 1/2 and 2/3. -/
theorem c6_witness :
    (∀ p ∈ ([⟨"A", 0, 0, 1, 1, ["X", "X", "X", "X"], []⟩,
        ⟨"B", 1, 0, 2, 1, ["X", "X", "X", "X"], []⟩] : Registry),
      0 < p.opp_wins + p.opp_losses ∧ p.opp_wins + p.opp_losses ≤ 255)
    ∧ ranking_of [⟨"A", 0, 0, 1, 1, ["X", "X", "X", "X"], []⟩,
        ⟨"B", 1, 0, 2, 1, ["X", "X", "X", "X"], []⟩] =
      sortBy (fun p1 p2 => (spec_rank p1 p2).swap)
        [⟨"A", 0, 0, 1, 1, ["X", "X", "X", "X"], []⟩,
          ⟨"B", 1, 0, 2, 1, ["X", "X", "X", "X"], []⟩] :=
  ⟨by decide, c6_standings_by_wins_then_rate _ (by decide)⟩

theorem add_win_iterate (k : Nat) (p : Player) : add_win^[k] p = bumpFields k 0 0 0 p := by
  induction k with
  | zero => rw [Function.iterate_zero_apply, bumpFields_zero]
  | succ n ih =>
    rw [Function.iterate_succ_apply', ih, add_win_eq_bump, bumpFields_comp]

theorem add_loss_iterate (k : Nat) (p : Player) : add_loss^[k] p = bumpFields 0 k 0 0 p := by
  induction k with
  | zero => rw [Function.iterate_zero_apply, bumpFields_zero]
  | succ n ih =>
    rw [Function.iterate_succ_apply', ih, add_loss_eq_bump, bumpFields_comp]

theorem add_opponent_win_iterate (k : Nat) (p : Player) :
    add_opponent_win^[k] p = bumpFields 0 0 k 0 p := by
  induction k with
  | zero => rw [Function.iterate_zero_apply, bumpFields_zero]
  | succ n ih =>
    rw [Function.iterate_succ_apply', ih, add_opponent_win_eq_bump, bumpFields_comp]

theorem add_opponent_loss_iterate (k : Nat) (p : Player) :
    add_opponent_loss^[k] p = bumpFields 0 0 0 k p := by
  induction k with
  | zero => rw [Function.iterate_zero_apply, bumpFields_zero]
  | succ n ih =>
    rw [Function.iterate_succ_apply', ih, add_opponent_loss_eq_bump, bumpFields_comp]

theorem u8bump_of_lt (d x : Nat) (h : x < 256) : u8bump d x = (x + d) % 256 := by
  unfold u8bump
  by_cases hd : d = 0
  · subst hd
    rw [if_pos rfl, Nat.add_zero, Nat.mod_eq_of_lt h]
  · rw [if_neg hd]

/-! ### Placement bookkeeping lemmas (claim C9) -/

theorem bumpCount_snd_sum (k : Nat) (m : List (Nat × Nat)) :
    ((bumpCount k m).map Prod.snd).sum = (m.map Prod.snd).sum + 1 := by
  induction m with
  | nil => rfl
  | cons kv rest ih =>
    rcases kv with ⟨k', c⟩
    unfold bumpCount
    by_cases h : k' = k
    · rw [if_pos h]
      simp only [List.map_cons, List.sum_cons]
      omega
    · rw [if_neg h]
      simp only [List.map_cons, List.sum_cons, ih]
      omega

theorem placements_total_add_placement (r : Nat) (p : Player) :
    placements_total (add_placement r p) = placements_total p + 1 := by
  unfold placements_total add_placement
  exact bumpCount_snd_sum r p.placements

theorem add_placement_changes (r : Nat) (p : Player) :
    ¬ (add_placement r p).placements = p.placements := by
  intro h
  have := placements_total_add_placement r p
  unfold placements_total at this
  rw [h] at this
  omega

theorem bumpCount_keys (k : Nat) (m : List (Nat × Nat)) :
    ∀ kv ∈ bumpCount k m, kv.1 = k ∨ ∃ kv' ∈ m, kv'.1 = kv.1 := by
  induction m with
  | nil =>
    intro kv hkv
    simp only [bumpCount, List.mem_singleton] at hkv
    subst hkv
    exact Or.inl rfl
  | cons kc rest ih =>
    rcases kc with ⟨k', c⟩
    intro kv hkv
    unfold bumpCount at hkv
    by_cases h : k' = k
    · rw [if_pos h] at hkv
      rcases List.mem_cons.mp hkv with rfl | hmem
      · exact Or.inl h
      · exact Or.inr ⟨kv, List.mem_cons_of_mem _ hmem, rfl⟩
    · rw [if_neg h] at hkv
      rcases List.mem_cons.mp hkv with rfl | hmem
      · exact Or.inr ⟨(k', c), List.mem_cons_self _ _, rfl⟩
      · rcases ih kv hmem with hk | ⟨kv', hkv', hkeq⟩
        · exact Or.inl hk
        · exact Or.inr ⟨kv', List.mem_cons_of_mem _ hkv', hkeq⟩

theorem modifyEntry_names (n : Name) (f : Player → Player) (M : Registry)
    (hf : ∀ p, (f p).name = p.name) :
    (modifyEntry n f M).map Player.name = M.map Player.name := by
  unfold modifyEntry
  rw [List.map_map]
  apply List.map_congr_left
  intro p _
  by_cases h : p.name = n <;> simp [h, hf]

theorem total_placements_modifyEntry (n : Name) (r : Nat) (M : Registry) :
    total_placements (modifyEntry n (add_placement r) M) =
      total_placements M + (M.map Player.name).count n := by
  induction M with
  | nil => rfl
  | cons p rest ih =>
    unfold modifyEntry at ih ⊢
    simp only [List.map_cons]
    unfold total_placements at ih ⊢
    simp only [List.map_cons, List.sum_cons, List.count_cons]
    by_cases h : p.name = n
    · rw [if_pos h, placements_total_add_placement, if_pos (beq_iff_eq.mpr h)]
      omega
    · rw [if_neg h, if_neg (fun hb => h (beq_iff_eq.mp hb))]
      omega

theorem place_fold_names (pairs : List (Nat × Player)) (M : Registry) :
    (place_fold pairs M).map Player.name = M.map Player.name := by
  induction pairs generalizing M with
  | nil => rfl
  | cons rp rest ih =>
    have hstep : place_fold (rp :: rest) M =
        place_fold rest (modifyEntry rp.2.name (add_placement (rp.1 + 1)) M) := rfl
    rw [hstep, ih, modifyEntry_names rp.2.name (add_placement (rp.1 + 1)) M (fun _ => rfl)]

theorem place_fold_base (pairs : List (Nat × Player)) (M : Registry) :
    (place_fold pairs M).map base_view = M.map base_view := by
  induction pairs generalizing M with
  | nil => rfl
  | cons rp rest ih =>
    have hstep : place_fold (rp :: rest) M =
        place_fold rest (modifyEntry rp.2.name (add_placement (rp.1 + 1)) M) := rfl
    rw [hstep, ih]
    unfold modifyEntry
    rw [List.map_map]
    apply List.map_congr_left
    intro p _
    by_cases h : p.name = rp.2.name <;> simp [h, base_view, add_placement]

theorem place_fold_total (pairs : List (Nat × Player)) (M : Registry)
    (h1 : ∀ rp ∈ pairs, (M.map Player.name).count rp.2.name = 1) :
    total_placements (place_fold pairs M) = total_placements M + pairs.length := by
  induction pairs generalizing M with
  | nil => rfl
  | cons rp rest ih =>
    have hstep : place_fold (rp :: rest) M =
        place_fold rest (modifyEntry rp.2.name (add_placement (rp.1 + 1)) M) := rfl
    rw [hstep]
    rw [ih _ (fun x hx => by
      rw [modifyEntry_names rp.2.name (add_placement (rp.1 + 1)) M (fun _ => rfl)]
      exact h1 x (List.mem_cons_of_mem rp hx))]
    rw [total_placements_modifyEntry, h1 rp (List.mem_cons_self rp rest)]
    simp only [List.length_cons]
    omega

theorem place_fold_map (pairs : List (Nat × Player)) (M : Registry)
    (hnd : (pairs.map (fun rp => rp.2.name)).Nodup) :
    place_fold pairs M = M.map (fun p =>
      match pairs.find? (fun rp => rp.2.name == p.name) with
      | some rp => add_placement (rp.1 + 1) p
      | none => p) := by
  induction pairs generalizing M with
  | nil =>
    simp only [List.find?_nil]
    exact (List.map_id M).symm
  | cons rp rest ih =>
    rcases List.nodup_cons.mp hnd with ⟨hnotin, hnd'⟩
    have hstep : place_fold (rp :: rest) M =
        place_fold rest (modifyEntry rp.2.name (add_placement (rp.1 + 1)) M) := rfl
    rw [hstep, ih _ hnd']
    unfold modifyEntry
    rw [List.map_map]
    apply List.map_congr_left
    intro p _
    simp only [Function.comp_apply]
    by_cases h : p.name = rp.2.name
    · rw [if_pos h]
      have hfr : rest.find? (fun x => x.2.name == (add_placement (rp.1 + 1) p).name) =
          none := by
        apply List.find?_eq_none.mpr
        intro x hx hbeq
        apply hnotin
        have hxn : x.2.name = p.name := beq_iff_eq.mp hbeq
        exact List.mem_map.mpr ⟨x, hx, by rw [hxn]; exact h⟩
      rw [hfr]
      have hhead : (rp :: rest).find? (fun x => x.2.name == p.name) = some rp :=
        List.find?_cons_of_pos rest (beq_iff_eq.mpr h.symm)
      rw [hhead]
    · rw [if_neg h]
      have hhead : (rp :: rest).find? (fun x => x.2.name == p.name) =
          rest.find? (fun x => x.2.name == p.name) :=
        List.find?_cons_of_neg rest (fun hb => h (beq_iff_eq.mp hb).symm)
      rw [hhead]

theorem enumFrom_take_fst_lt (l : List Player) (n K : Nat) :
    ∀ rp ∈ (List.enumFrom n l).take K, rp.1 < n + K := by
  induction l generalizing n K with
  | nil => intro rp hrp; simp at hrp
  | cons x xs ih =>
    intro rp hrp
    cases K with
    | zero => simp at hrp
    | succ K' =>
      simp only [List.enumFrom, List.take_succ_cons] at hrp
      rcases List.mem_cons.mp hrp with rfl | hmem
      · omega
      · have := ih (n + 1) K' rp hmem
        omega

theorem enum_take_map_snd (l : List Player) (K : Nat) :
    ((l.enum.take K).map Prod.snd) = l.take K := by
  rw [List.map_take, List.enum_map_snd]

theorem place_fold_keys (K : Nat) (pairs : List (Nat × Player)) :
    ∀ M : Registry, (∀ rp ∈ pairs, rp.1 + 1 ≤ K) →
    (∀ p ∈ M, ∀ kv ∈ p.placements, 1 ≤ kv.1 ∧ kv.1 ≤ K) →
    ∀ p ∈ place_fold pairs M, ∀ kv ∈ p.placements, 1 ≤ kv.1 ∧ kv.1 ≤ K := by
  induction pairs with
  | nil => exact fun M _ hM => hM
  | cons rp rest ih =>
    intro M hidx hM
    have hstep : place_fold (rp :: rest) M =
        place_fold rest (modifyEntry rp.2.name (add_placement (rp.1 + 1)) M) := rfl
    rw [hstep]
    apply ih _ (fun x hx => hidx x (List.mem_cons_of_mem rp hx))
    intro p hp kv hkv
    unfold modifyEntry at hp
    rcases List.mem_map.mp hp with ⟨q, hq, rfl⟩
    by_cases hname : q.name = rp.2.name
    · rw [if_pos hname] at hkv
      unfold add_placement at hkv
      rcases bumpCount_keys (rp.1 + 1) q.placements kv hkv with hk | ⟨kv', hkv', hkeq⟩
      · have := hidx rp (List.mem_cons_self rp rest)
        omega
      · rw [← hkeq]
        exact hM q hq kv' hkv'
    · rw [if_neg hname] at hkv
      exact hM q hq kv hkv

theorem zip_map_self (l : List Player) (f : Player → Player) :
    l.zip (l.map f) = l.map (fun a => (a, f a)) := by
  induction l with
  | nil => rfl
  | cons x xs ih => rw [List.map_cons, List.zip_cons_cons, ih, List.map_cons]

theorem apply_matches_names (i : Nat) (ms : List (Name × Name)) (M : Registry) :
    (apply_matches i ms M).map Player.name = M.map Player.name := by
  rw [apply_matches_eq, apply_all_eq, List.map_map]
  apply List.map_congr_left
  intro p _
  rfl

theorem apply_matches_length (i : Nat) (ms : List (Name × Name)) (M : Registry) :
    (apply_matches i ms M).length = M.length := by
  rw [apply_matches_eq, apply_all_eq, List.length_map]

theorem simulate_eq_some {i K : Nat} {ms : List (Name × Name)} {M U : Registry}
    (h : simulate i K ms M = some U) :
    U = place_fold ((ranking_of (apply_matches i ms M)).enum.take K) M := by
  simp only [simulate] at h
  by_cases hp : sortPanics (apply_matches i ms M)
  · rw [if_pos hp] at h
    exact absurd h (by simp)
  · rw [if_neg hp] at h
    exact (Option.some_inj.mp h).symm

theorem ranking_names_perm (S : Registry) :
    ((ranking_of S).map Player.name).Perm (S.map Player.name) :=
  (sortBy_perm rank_rev S).map Player.name

theorem ranking_length (S : Registry) : (ranking_of S).length = S.length :=
  (sortBy_perm rank_rev S).length_eq

theorem simulate_step_counts {i K : Nat} {ms : List (Name × Name)} {M U : Registry}
    (h : simulate i K ms M = some U) (hnd : (M.map Player.name).Nodup) :
    total_placements U = total_placements M + min K M.length
    ∧ ∃ stand : List Name, stand.Nodup ∧ stand.length = min K M.length
      ∧ ∀ pq ∈ M.zip U, (¬ pq.1.placements = pq.2.placements ↔ pq.1.name ∈ stand) := by
  have hU : U = place_fold ((ranking_of (apply_matches i ms M)).enum.take K) M :=
    simulate_eq_some h
  have hSnames : (apply_matches i ms M).map Player.name = M.map Player.name :=
    apply_matches_names i ms M
  have hRperm : ((ranking_of (apply_matches i ms M)).map Player.name).Perm
      (M.map Player.name) := by
    rw [← hSnames]
    exact ranking_names_perm _
  have hRnodup : ((ranking_of (apply_matches i ms M)).map Player.name).Nodup :=
    hRperm.nodup_iff.mpr hnd
  have hRlen : (ranking_of (apply_matches i ms M)).length = M.length := by
    rw [ranking_length, apply_matches_length]
  have hplen : ((ranking_of (apply_matches i ms M)).enum.take K).length = min K M.length := by
    rw [List.length_take, List.enum_length, hRlen]
  have hpairs_names : ((ranking_of (apply_matches i ms M)).enum.take K).map
      (fun rp => rp.2.name) =
      (((ranking_of (apply_matches i ms M)).take K).map Player.name) := by
    rw [show (fun rp : Nat × Player => rp.2.name) = (Player.name ∘ Prod.snd) from rfl,
      ← List.map_map, enum_take_map_snd]
  have hstand_nodup : (((ranking_of (apply_matches i ms M)).enum.take K).map
      (fun rp => rp.2.name)).Nodup := by
    rw [hpairs_names]
    exact (((List.take_sublist K _).map Player.name).nodup) hRnodup
  have hcount1 : ∀ rp ∈ (ranking_of (apply_matches i ms M)).enum.take K,
      (M.map Player.name).count rp.2.name = 1 := by
    intro rp hrp
    apply List.count_eq_one_of_mem hnd
    have hmem : rp ∈ (ranking_of (apply_matches i ms M)).enum := List.mem_of_mem_take hrp
    have h2 : rp.2 ∈ ranking_of (apply_matches i ms M) := by
      have := List.mem_map_of_mem Prod.snd hmem
      rwa [List.enum_map_snd] at this
    exact hRperm.mem_iff.mp (List.mem_map_of_mem Player.name h2)
  constructor
  · rw [hU, place_fold_total _ M hcount1, hplen]
  · refine ⟨((ranking_of (apply_matches i ms M)).enum.take K).map (fun rp => rp.2.name),
      hstand_nodup, by rw [List.length_map, hplen], ?_⟩
    rw [hU, place_fold_map _ M hstand_nodup, zip_map_self]
    intro pq hpq
    rcases List.mem_map.mp hpq with ⟨p, hp, rfl⟩
    cases hf : ((ranking_of (apply_matches i ms M)).enum.take K).find?
        (fun rp => rp.2.name == p.name) with
    | some rp =>
      simp only [hf]
      apply iff_of_true
      · exact fun heq => add_placement_changes (rp.1 + 1) p heq.symm
      · have hrp : rp ∈ (ranking_of (apply_matches i ms M)).enum.take K :=
          List.mem_of_find?_eq_some hf
        have hpn : rp.2.name = p.name := by simpa using List.find?_some hf
        exact List.mem_map.mpr ⟨rp, hrp, hpn⟩
    | none =>
      simp only [hf]
      apply iff_of_false
      · simp
      · intro hmem
        rcases List.mem_map.mp hmem with ⟨x, hx, hxn⟩
        have hfalse := List.find?_eq_none.mp hf x hx
        apply hfalse
        simpa using hxn

theorem simulate_step_keys {i K : Nat} {ms : List (Name × Name)} {M U : Registry}
    (h : simulate i K ms M = some U)
    (hM : ∀ p ∈ M, ∀ kv ∈ p.placements, 1 ≤ kv.1 ∧ kv.1 ≤ K) :
    ∀ p ∈ U, ∀ kv ∈ p.placements, 1 ≤ kv.1 ∧ kv.1 ≤ K := by
  rw [simulate_eq_some h]
  apply place_fold_keys K _ M _ hM
  intro rp hrp
  have hfst := enumFrom_take_fst_lt (ranking_of (apply_matches i ms M)) 0 K rp hrp
  omega

theorem run_sim_base_keys (K : Nat) (ms : List (Name × Name)) (L : Registry)
    (steps : Nat) (hempty : ∀ p ∈ L, p.placements = []) :
    ∀ L', run_sim K ms L steps = some L' →
      L'.map base_view = L.map base_view
      ∧ (∀ p ∈ L', ∀ kv ∈ p.placements, 1 ≤ kv.1 ∧ kv.1 ≤ K) := by
  induction steps with
  | zero =>
    intro L' h
    simp only [run_sim] at h
    cases Option.some_inj.mp h
    refine ⟨rfl, ?_⟩
    intro p hp kv hkv
    rw [hempty p hp] at hkv
    simp at hkv
  | succ n ih =>
    intro L' h
    simp only [run_sim] at h
    rcases Option.bind_eq_some.mp h with ⟨mid, hmid, hstep⟩
    obtain ⟨hb, hk⟩ := ih mid hmid
    have hb' : L'.map base_view = mid.map base_view := by
      rw [simulate_eq_some hstep]
      exact place_fold_base _ _
    exact ⟨hb'.trans hb, simulate_step_keys hstep hk⟩

/-- Claim C9: confirmed.  After any prefix of enumeration steps that
completed without a panic: every registry record keeps its load-time
name, wins, losses, opponent stats and opponent list (only `placements`
is ever mutated); every key of every placements map lies in 1..K; and
the next evaluated outcome adds exactly min(K, player count) placement
increments, distributed over exactly that many distinct players (the
positions whose placements change are exactly the members of a
duplicate-free standings list of that length). -/
theorem c9_registry_invariants (K : Nat) (ms : List (Name × Name)) (L : Registry)
    (steps : Nat) (L' : Registry) (hrun : run_sim K ms L steps = some L')
    (hnd : (L.map Player.name).Nodup) (hempty : ∀ p ∈ L, p.placements = []) :
    L'.map base_view = L.map base_view
    ∧ (∀ p ∈ L', ∀ kv ∈ p.placements, 1 ≤ kv.1 ∧ kv.1 ≤ K)
    ∧ ∀ i U, simulate i K ms L' = some U →
        total_placements U = total_placements L' + min K L'.length
        ∧ ∃ stand : List Name, stand.Nodup ∧ stand.length = min K L'.length
          ∧ ∀ pq ∈ L'.zip U, (¬ pq.1.placements = pq.2.placements ↔ pq.1.name ∈ stand) := by
  obtain ⟨hb, hk⟩ := run_sim_base_keys K ms L steps hempty L' hrun
  refine ⟨hb, hk, ?_⟩
  intro i U h
  have hnames : L'.map Player.name = L.map Player.name := by
    have hfst := congrArg (List.map Prod.fst) hb
    rw [List.map_map, List.map_map] at hfst
    exact hfst
  exact simulate_step_counts h (by rw [hnames]; exact hnd)

/-- Witness for C9: a one-step run on two tied players with K = 2. -/
theorem c9_witness :
    run_sim 2 [] [⟨"A", 0, 0, 1, 1, ["X", "X", "X", "X"], []⟩,
        ⟨"B", 0, 0, 1, 1, ["X", "X", "X", "X"], []⟩] 1 =
      some [⟨"A", 0, 0, 1, 1, ["X", "X", "X", "X"], [(1, 1)]⟩,
        ⟨"B", 0, 0, 1, 1, ["X", "X", "X", "X"], [(2, 1)]⟩]
    ∧ (([⟨"A", 0, 0, 1, 1, ["X", "X", "X", "X"], []⟩,
        ⟨"B", 0, 0, 1, 1, ["X", "X", "X", "X"], []⟩] : Registry).map Player.name).Nodup
    ∧ (∀ p ∈ ([⟨"A", 0, 0, 1, 1, ["X", "X", "X", "X"], []⟩,
        ⟨"B", 0, 0, 1, 1, ["X", "X", "X", "X"], []⟩] : Registry), p.placements = [])
    ∧ (([⟨"A", 0, 0, 1, 1, ["X", "X", "X", "X"], [(1, 1)]⟩,
          ⟨"B", 0, 0, 1, 1, ["X", "X", "X", "X"], [(2, 1)]⟩] : Registry).map base_view =
        ([⟨"A", 0, 0, 1, 1, ["X", "X", "X", "X"], []⟩,
          ⟨"B", 0, 0, 1, 1, ["X", "X", "X", "X"], []⟩] : Registry).map base_view
      ∧ (∀ p ∈ ([⟨"A", 0, 0, 1, 1, ["X", "X", "X", "X"], [(1, 1)]⟩,
          ⟨"B", 0, 0, 1, 1, ["X", "X", "X", "X"], [(2, 1)]⟩] : Registry),
          ∀ kv ∈ p.placements, 1 ≤ kv.1 ∧ kv.1 ≤ 2)
      ∧ ∀ i U, simulate i 2 []
            ([⟨"A", 0, 0, 1, 1, ["X", "X", "X", "X"], [(1, 1)]⟩,
              ⟨"B", 0, 0, 1, 1, ["X", "X", "X", "X"], [(2, 1)]⟩] : Registry) = some U →
          total_placements U =
            total_placements ([⟨"A", 0, 0, 1, 1, ["X", "X", "X", "X"], [(1, 1)]⟩,
              ⟨"B", 0, 0, 1, 1, ["X", "X", "X", "X"], [(2, 1)]⟩] : Registry) +
              min 2 ([⟨"A", 0, 0, 1, 1, ["X", "X", "X", "X"], [(1, 1)]⟩,
                ⟨"B", 0, 0, 1, 1, ["X", "X", "X", "X"], [(2, 1)]⟩] : Registry).length
          ∧ ∃ stand : List Name, stand.Nodup
            ∧ stand.length = min 2 ([⟨"A", 0, 0, 1, 1, ["X", "X", "X", "X"], [(1, 1)]⟩,
                ⟨"B", 0, 0, 1, 1, ["X", "X", "X", "X"], [(2, 1)]⟩] : Registry).length
            ∧ ∀ pq ∈ ([⟨"A", 0, 0, 1, 1, ["X", "X", "X", "X"], [(1, 1)]⟩,
                ⟨"B", 0, 0, 1, 1, ["X", "X", "X", "X"], [(2, 1)]⟩] : Registry).zip U,
                (¬ pq.1.placements = pq.2.placements ↔ pq.1.name ∈ stand)) :=
  ⟨by decide, by decide, by decide,
    c9_registry_invariants 2 [] _ 1 _ (by decide) (by decide) (by decide)⟩

/-- Claim C10: confirmed.  Every counter is `u8`, each increment is
arithmetic modulo 2^8: after `k` increments a counter holds
`(baseline + k) % 256`, which equals `baseline + k` exactly when that sum
stays at or below 255; beyond that the value wraps and in particular
never exceeds 255. -/
theorem c10_u8_counters_wrap (p : Player) (k : Nat) (hw : p.wins < 256)
    (hl : p.losses < 256) (how : p.opp_wins < 256) (hol : p.opp_losses < 256) :
    ((add_win^[k] p).wins = (p.wins + k) % 256
      ∧ (p.wins + k ≤ 255 → (add_win^[k] p).wins = p.wins + k)
      ∧ (add_win^[k] p).wins ≤ 255)
    ∧ ((add_loss^[k] p).losses = (p.losses + k) % 256
      ∧ (p.losses + k ≤ 255 → (add_loss^[k] p).losses = p.losses + k)
      ∧ (add_loss^[k] p).losses ≤ 255)
    ∧ ((add_opponent_win^[k] p).opp_wins = (p.opp_wins + k) % 256
      ∧ (p.opp_wins + k ≤ 255 → (add_opponent_win^[k] p).opp_wins = p.opp_wins + k)
      ∧ (add_opponent_win^[k] p).opp_wins ≤ 255)
    ∧ ((add_opponent_loss^[k] p).opp_losses = (p.opp_losses + k) % 256
      ∧ (p.opp_losses + k ≤ 255 → (add_opponent_loss^[k] p).opp_losses = p.opp_losses + k)
      ∧ (add_opponent_loss^[k] p).opp_losses ≤ 255) := by
  rw [add_win_iterate, add_loss_iterate, add_opponent_win_iterate, add_opponent_loss_iterate]
  unfold bumpFields
  simp only [u8bump_of_lt _ _ hw, u8bump_of_lt _ _ hl, u8bump_of_lt _ _ how,
    u8bump_of_lt _ _ hol]
  refine ⟨⟨?_, ?_, ?_⟩, ⟨?_, ?_, ?_⟩, ⟨?_, ?_, ?_⟩, ⟨?_, ?_, ?_⟩⟩ <;>
    first
      | trivial
      | (intro hle; omega)
      | omega

/-- Witness for C10: a wins counter at 250 after 10 increments wraps to
4. -/
theorem c10_witness :
    (250 < 256 ∧ 0 < 256 ∧ 3 < 256 ∧ 255 < 256)
    ∧ ((add_win^[10] (⟨"A", 250, 0, 3, 255, [], []⟩ : Player)).wins = (250 + 10) % 256
      ∧ (250 + 10 ≤ 255 →
          (add_win^[10] (⟨"A", 250, 0, 3, 255, [], []⟩ : Player)).wins = 250 + 10)
      ∧ (add_win^[10] (⟨"A", 250, 0, 3, 255, [], []⟩ : Player)).wins ≤ 255)
    ∧ ((add_loss^[10] (⟨"A", 250, 0, 3, 255, [], []⟩ : Player)).losses = (0 + 10) % 256
      ∧ (0 + 10 ≤ 255 →
          (add_loss^[10] (⟨"A", 250, 0, 3, 255, [], []⟩ : Player)).losses = 0 + 10)
      ∧ (add_loss^[10] (⟨"A", 250, 0, 3, 255, [], []⟩ : Player)).losses ≤ 255)
    ∧ ((add_opponent_win^[10] (⟨"A", 250, 0, 3, 255, [], []⟩ : Player)).opp_wins =
          (3 + 10) % 256
      ∧ (3 + 10 ≤ 255 →
          (add_opponent_win^[10] (⟨"A", 250, 0, 3, 255, [], []⟩ : Player)).opp_wins = 3 + 10)
      ∧ (add_opponent_win^[10] (⟨"A", 250, 0, 3, 255, [], []⟩ : Player)).opp_wins ≤ 255)
    ∧ ((add_opponent_loss^[10] (⟨"A", 250, 0, 3, 255, [], []⟩ : Player)).opp_losses =
          (255 + 10) % 256
      ∧ (255 + 10 ≤ 255 →
          (add_opponent_loss^[10] (⟨"A", 250, 0, 3, 255, [], []⟩ : Player)).opp_losses =
            255 + 10)
      ∧ (add_opponent_loss^[10] (⟨"A", 250, 0, 3, 255, [], []⟩ : Player)).opp_losses ≤ 255) :=
  ⟨⟨by decide, by decide, by decide, by decide⟩,
    c10_u8_counters_wrap ⟨"A", 250, 0, 3, 255, [], []⟩ 10
      (by decide) (by decide) (by decide) (by decide)⟩

end CCLS
